import Mathlib

/-!
Verification of `src/Lab02/brute_force_search.py` (parallel brute-force
hash search).  Each Python function is embedded as a Lean definition;
the theorems at the end of the file settle the specification claims.

Conventions of the embedding:
* Python `int` is `Int` where negative values can occur (worker counts,
  charset ids) and `Nat` where the source only ever handles indices.
* Python exceptions (`ValueError`, `StopIteration`, `ZeroDivisionError`)
  are modelled with `Except String`.
* `hashlib` is an external collaborator: the three digest functions are
  passed in as an explicit `HashLib` record of `String → String`
  functions; no claim depends on the digest values themselves.
* Wall-clock values (`time.time()` deltas) carried inside events are
  irrelevant to every claim and are left out of the worker's result
  tuples; the coordinator's aggregation state is polymorphic in the
  event payload so any elapsed-time representation can be carried.
-/

namespace BruteForce

/-! ## Indexer: `itertools.product(charset, repeat=length)`

`itertools.product` enumerates tuples in lexicographic order with the
first coordinate outermost (rightmost element varies fastest), i.e.
`product(A, repeat=n+1) = [(c, *t) for c in A for t in product(A, repeat=n)]`.
`productRep cs n` is that list of tuples (as `List Char`). -/

def productRep (cs : List Char) : Nat → List (List Char)
  | 0 => [[]]
  | n + 1 => cs.flatMap (fun c => (productRep cs n).map (fun t => c :: t))

/-- The candidate tuple at a given absolute index of the product
enumeration, as consumed by `worker` via skip + `islice` + `enumerate`. -/
def nthCandidate (cs : List Char) (len i : Nat) : List Char :=
  (productRep cs len).getD i []

/-- Mixed-radix digit expansion (base `cs.length`, most significant digit
first), the closed form of the product enumeration order. -/
def decodeRadix (cs : List Char) : Nat → Nat → List Char
  | 0, _ => []
  | n + 1, i => cs.getD (i / cs.length ^ n) ' ' :: decodeRadix cs n (i % cs.length ^ n)

/-- Inverse mixed-radix encoding: fold digits back into an index. -/
def encode (cs : List Char) (s : List Char) : Nat :=
  s.foldl (fun acc c => acc * cs.length + cs.indexOf c) 0

theorem productRep_length (cs : List Char) (n : Nat) :
    (productRep cs n).length = cs.length ^ n := by
  induction n with
  | zero => rfl
  | succ n ih =>
    simp only [productRep, List.length_flatMap, Function.comp_def,
      List.length_map, ih, pow_succ]
    rw [List.map_const', List.sum_replicate, smul_eq_mul, Nat.mul_comm]

theorem sub_div_eq_div_sub_one {i m : Nat} (hm : 0 < m) (hle : m ≤ i) :
    (i - m) / m = i / m - 1 := by
  rcases Nat.exists_eq_add_of_le hle with ⟨k, hk⟩
  subst hk
  rw [Nat.add_comm m k, Nat.add_sub_cancel, Nat.add_div_right _ hm,
    Nat.add_sub_cancel]

theorem getD_flatMap {α β : Type} (f : α → List β) (m : Nat)
    (hm : ∀ a, (f a).length = m) (l : List α) (d : β) (da : α) :
    ∀ i, i < l.length * m →
      (l.flatMap f).getD i d = (f (l.getD (i / m) da)).getD (i % m) d := by
  induction l with
  | nil => intro i hi; simp at hi
  | cons a l ih =>
    intro i hi
    have hmpos : 0 < m := by
      rcases Nat.eq_zero_or_pos m with h0 | h
      · simp [h0] at hi
      · exact h
    rw [List.flatMap_cons]
    by_cases hlt : i < m
    · rw [List.getD_append _ _ _ _ (by rw [hm a]; exact hlt)]
      rw [Nat.div_eq_of_lt hlt, Nat.mod_eq_of_lt hlt]
      rfl
    · push_neg at hlt
      rw [List.getD_append_right _ _ _ _ (by rw [hm a]; exact hlt), hm a]
      have hi' : i - m < l.length * m := by
        have hstep : (a :: l).length * m = l.length * m + m := by
          rw [List.length_cons, Nat.succ_mul]
        omega
      rw [ih (i - m) hi']
      have hdiv : (i - m) / m = i / m - 1 := sub_div_eq_div_sub_one hmpos hlt
      have hmod : (i - m) % m = i % m := (Nat.mod_eq_sub_mod hlt).symm
      have hdpos : 1 ≤ i / m := (Nat.one_le_div_iff hmpos).mpr hlt
      rw [hdiv, hmod]
      congr 2
      rcases Nat.exists_eq_add_of_le hdpos with ⟨k, hk⟩
      rw [hk]
      simp [Nat.add_comm]

theorem nthCandidate_eq_decodeRadix (cs : List Char) :
    ∀ (n i : Nat), i < cs.length ^ n →
      nthCandidate cs n i = decodeRadix cs n i := by
  intro n
  induction n with
  | zero =>
    intro i hi
    rw [pow_zero] at hi
    have h0 : i = 0 := by omega
    subst h0
    rfl
  | succ n ih =>
    intro i hi
    have hb : 0 < cs.length := by
      rcases Nat.eq_zero_or_pos cs.length with h0 | h
      · rw [h0] at hi; simp at hi
      · exact h
    have hpow : 0 < cs.length ^ n := Nat.pos_pow_of_pos n hb
    have hlen : ∀ c, ((productRep cs n).map (fun t => c :: t)).length =
        cs.length ^ n := by
      intro c; rw [List.length_map, productRep_length]
    have hi' : i < cs.length * cs.length ^ n := by
      rw [pow_succ, Nat.mul_comm] at hi; exact hi
    have hdivlt : i / cs.length ^ n < cs.length :=
      Nat.div_lt_of_lt_mul (by rw [Nat.mul_comm]; exact hi')
    have hmodlt : i % cs.length ^ n < cs.length ^ n := Nat.mod_lt _ hpow
    unfold nthCandidate productRep
    rw [getD_flatMap _ (cs.length ^ n) hlen cs [] ' ' i hi']
    rw [List.getD_eq_getElem _ _ (by rw [hlen]; exact hmodlt), List.getElem_map]
    unfold decodeRadix
    rw [List.getD_eq_getElem _ _ hdivlt]
    congr 1
    rw [← ih (i % cs.length ^ n) hmodlt]
    unfold nthCandidate
    rw [List.getD_eq_getElem _ _ (by rw [productRep_length]; exact hmodlt)]

theorem decodeRadix_length (cs : List Char) :
    ∀ (n i : Nat), (decodeRadix cs n i).length = n := by
  intro n
  induction n with
  | zero => intro i; rfl
  | succ n ih => intro i; simp [decodeRadix, ih]

theorem decodeRadix_mem (cs : List Char) :
    ∀ (n i : Nat), i < cs.length ^ n → ∀ c ∈ decodeRadix cs n i, c ∈ cs := by
  intro n
  induction n with
  | zero => intro i _ c hc; simp [decodeRadix] at hc
  | succ n ih =>
    intro i hi c hc
    have hb : 0 < cs.length := by
      rcases Nat.eq_zero_or_pos cs.length with h0 | h
      · rw [h0] at hi; simp at hi
      · exact h
    have hpow : 0 < cs.length ^ n := Nat.pos_pow_of_pos n hb
    have hi' : i < cs.length * cs.length ^ n := by
      rw [pow_succ, Nat.mul_comm] at hi; exact hi
    have hdivlt : i / cs.length ^ n < cs.length :=
      Nat.div_lt_of_lt_mul (by rw [Nat.mul_comm]; exact hi')
    have hmodlt : i % cs.length ^ n < cs.length ^ n := Nat.mod_lt _ hpow
    simp only [decodeRadix, List.mem_cons] at hc
    rcases hc with hc | hc
    · rw [hc, List.getD_eq_getElem _ _ hdivlt]
      exact List.getElem_mem hdivlt
    · exact ih (i % cs.length ^ n) hmodlt c hc

/-- The candidate string a worker tests for a given absolute index:
`''.join` of the index-th tuple of `itertools.product(charset, repeat=length)`. -/
def candidateAt (cs : List Char) (len i : Nat) : String :=
  String.mk (nthCandidate cs len i)

theorem encode_foldl (cs : List Char) :
    ∀ (s : List Char) (acc : Nat),
      s.foldl (fun a c => a * cs.length + cs.indexOf c) acc =
        acc * cs.length ^ s.length + encode cs s := by
  intro s
  induction s with
  | nil => intro acc; simp [encode]
  | cons c s ih =>
    intro acc
    have hz : encode cs (c :: s) =
        cs.indexOf c * cs.length ^ s.length + encode cs s := by
      simp only [encode, List.foldl_cons, Nat.zero_mul, Nat.zero_add]
      rw [ih]
      rfl
    rw [List.foldl_cons, ih, hz, List.length_cons, pow_succ]
    ring

theorem encode_decodeRadix (cs : List Char) (hnd : cs.Nodup) :
    ∀ (n i : Nat), i < cs.length ^ n →
      encode cs (decodeRadix cs n i) = i := by
  intro n
  induction n with
  | zero =>
    intro i hi
    rw [pow_zero] at hi
    have h0 : i = 0 := by omega
    subst h0
    rfl
  | succ n ih =>
    intro i hi
    have hb : 0 < cs.length := by
      rcases Nat.eq_zero_or_pos cs.length with h0 | h
      · rw [h0] at hi; simp at hi
      · exact h
    have hpow : 0 < cs.length ^ n := Nat.pos_pow_of_pos n hb
    have hi' : i < cs.length * cs.length ^ n := by
      rw [pow_succ, Nat.mul_comm] at hi; exact hi
    have hdivlt : i / cs.length ^ n < cs.length :=
      Nat.div_lt_of_lt_mul (by rw [Nat.mul_comm]; exact hi')
    have hmodlt : i % cs.length ^ n < cs.length ^ n := Nat.mod_lt _ hpow
    show List.foldl _ 0 (_ :: _) = i
    rw [List.foldl_cons, Nat.zero_mul, Nat.zero_add]
    rw [encode_foldl, decodeRadix_length]
    rw [List.getD_eq_getElem _ _ hdivlt, List.indexOf_getElem hnd _ hdivlt]
    rw [ih (i % cs.length ^ n) hmodlt]
    exact Nat.div_add_mod' i (cs.length ^ n)

theorem encode_lt (cs : List Char) :
    ∀ s : List Char, (∀ c ∈ s, c ∈ cs) →
      encode cs s < cs.length ^ s.length := by
  intro s
  induction s with
  | nil => intro _; simp [encode]
  | cons c s ih =>
    intro hmem
    have hc : c ∈ cs := hmem c (List.mem_cons_self c s)
    have hidx : cs.indexOf c < cs.length := List.indexOf_lt_length.mpr hc
    have he : encode cs s < cs.length ^ s.length :=
      ih (fun x hx => hmem x (List.mem_cons_of_mem c hx))
    have hz : encode cs (c :: s) =
        cs.indexOf c * cs.length ^ s.length + encode cs s := by
      simp only [encode, List.foldl_cons, Nat.zero_mul, Nat.zero_add]
      rw [encode_foldl]
      rfl
    rw [hz, List.length_cons, pow_succ, Nat.mul_comm (cs.length ^ s.length)]
    calc cs.indexOf c * cs.length ^ s.length + encode cs s
        < (cs.indexOf c + 1) * cs.length ^ s.length := by
          rw [Nat.succ_mul]; exact Nat.add_lt_add_left he _
      _ ≤ cs.length * cs.length ^ s.length :=
          Nat.mul_le_mul_right _ hidx

theorem decodeRadix_encode (cs : List Char) :
    ∀ s : List Char, (∀ c ∈ s, c ∈ cs) →
      decodeRadix cs s.length (encode cs s) = s := by
  intro s
  induction s with
  | nil => intro _; rfl
  | cons c s ih =>
    intro hmem
    have hc : c ∈ cs := hmem c (List.mem_cons_self c s)
    have hb : 0 < cs.length := List.length_pos.mpr (List.ne_nil_of_mem hc)
    have hpow : 0 < cs.length ^ s.length := Nat.pos_pow_of_pos _ hb
    have hidx : cs.indexOf c < cs.length := List.indexOf_lt_length.mpr hc
    have he : encode cs s < cs.length ^ s.length :=
      encode_lt cs s (fun x hx => hmem x (List.mem_cons_of_mem c hx))
    have hz : encode cs (c :: s) =
        cs.length ^ s.length * cs.indexOf c + encode cs s := by
      simp only [encode, List.foldl_cons, Nat.zero_mul, Nat.zero_add]
      rw [encode_foldl, Nat.mul_comm]
      rfl
    rw [List.length_cons, hz]
    show cs.getD _ ' ' :: decodeRadix cs s.length _ = c :: s
    rw [Nat.mul_add_div hpow, Nat.div_eq_of_lt he, Nat.add_zero]
    rw [Nat.mul_add_mod, Nat.mod_eq_of_lt he]
    rw [ih (fun x hx => hmem x (List.mem_cons_of_mem c hx))]
    rw [List.getD_eq_getElem _ _ hidx, List.getElem_indexOf hidx]

/-- C2: the index-to-candidate mapping used by a worker (the index-th
tuple of `itertools.product(charset, repeat=length)`, joined into a
string) is a bijection from `[0, total)` onto the strings of exactly
`length` symbols drawn from `charset`: injective over `[0, total)`,
image exactly that set, and `encode (decode index) = index` on
`[0, total)` (`encode` being the inverse mixed-radix encoding). -/
theorem worker_index_bijection (cs : List Char) (len : Nat)
    (hnd : cs.Nodup) :
    (∀ i j, i < cs.length ^ len → j < cs.length ^ len →
      candidateAt cs len i = candidateAt cs len j → i = j) ∧
    (∀ i, i < cs.length ^ len →
      (candidateAt cs len i).data.length = len ∧
      ∀ c ∈ (candidateAt cs len i).data, c ∈ cs) ∧
    (∀ s : String, s.data.length = len → (∀ c ∈ s.data, c ∈ cs) →
      ∃ i, i < cs.length ^ len ∧ candidateAt cs len i = s) ∧
    (∀ i, i < cs.length ^ len → encode cs (nthCandidate cs len i) = i) := by
  have hround : ∀ i, i < cs.length ^ len →
      encode cs (nthCandidate cs len i) = i := by
    intro i hi
    rw [nthCandidate_eq_decodeRadix cs len i hi]
    exact encode_decodeRadix cs hnd len i hi
  refine ⟨?_, ?_, ?_, hround⟩
  · intro i j hi hj heq
    have hdata : nthCandidate cs len i = nthCandidate cs len j :=
      congrArg String.data heq
    have := hround i hi
    rw [hdata, hround j hj] at this
    exact this.symm
  · intro i hi
    rw [candidateAt]
    show (nthCandidate cs len i).length = len ∧ _
    rw [nthCandidate_eq_decodeRadix cs len i hi]
    exact ⟨decodeRadix_length cs len i, decodeRadix_mem cs len i hi⟩
  · intro s hslen hsmem
    refine ⟨encode cs s.data, ?_, ?_⟩
    · rw [← hslen]
      exact encode_lt cs s.data hsmem
    · rw [candidateAt, nthCandidate_eq_decodeRadix cs len _
        (by rw [← hslen]; exact encode_lt cs s.data hsmem)]
      rw [← hslen, decodeRadix_encode cs s.data hsmem]

/-- Witness for C2 at charset "01", length 2: the round-trip law at
index 3 (candidate "11"). -/
theorem worker_index_bijection_witness :
    encode ['0', '1'] (nthCandidate ['0', '1'] 2 3) = 3 :=
  (worker_index_bijection ['0', '1'] 2 (by decide)).2.2.2 3 (by decide)

/-! ## Digest matcher: `hash_match` (lines 9-20)

The three `hashlib` digest functions are external collaborators, passed
in as a record of string functions. -/

structure HashLib where
  md5 : String → String
  sha1 : String → String
  sha256 : String → String

def hash_match (H : HashLib) (candidate : String)
    (target_hashes : List String) (hash_algorithm : String) :
    Except String (String × Bool) :=
  if hash_algorithm = "MD5" then
    Except.ok (H.md5 candidate, target_hashes.contains (H.md5 candidate))
  else if hash_algorithm = "SHA-1" then
    Except.ok (H.sha1 candidate, target_hashes.contains (H.sha1 candidate))
  else if hash_algorithm = "SHA-256" then
    Except.ok (H.sha256 candidate, target_hashes.contains (H.sha256 candidate))
  else
    Except.error ("Unsupported hash algorithm: " ++ hash_algorithm)

/-! ## Worker: `worker` (lines 22-56)

The loop over `enumerate(itertools.islice(candidate_space, chunk_end -
chunk_start))` after skipping `chunk_start` items: iteration `index`
handles absolute index `chunk_start + index`.  `stop_event.is_set()` is a
time-varying shared flag, modelled as a Boolean function of the loop
index at which it is read.  Log-file writes have no bearing on any claim
and are not modelled; result-queue and progress-queue puts are collected
into lists in emission order.  Wall-clock elapsed times carried on the
result queue are dropped (see the file header). -/

def stop_check_interval : Nat := 10000

structure WorkerOut where
  results : List (String × String)
  progress : List (Nat × Nat × Nat)
  processed : Nat
  deriving Repr, DecidableEq

def workerLoop (H : HashLib) (worker_id : Nat) (cs : List Char)
    (len chunk_start : Nat) (target_hashes : List String)
    (hash_algorithm : String) (progress_report_interval : Nat)
    (stop_event : Nat → Bool) (total_combinations : Nat) :
    Nat → Nat → Except String WorkerOut
  | 0, _ => Except.ok ⟨[], [], 0⟩
  | remaining + 1, index =>
    if index % stop_check_interval == 0 && stop_event index then
      Except.ok ⟨[], [], 0⟩
    else
      match hash_match H (candidateAt cs len (chunk_start + index))
          target_hashes hash_algorithm with
      | Except.error e => Except.error e
      | Except.ok (candidate_hash, is_match) =>
        match workerLoop H worker_id cs len chunk_start target_hashes
            hash_algorithm progress_report_interval stop_event
            total_combinations remaining (index + 1) with
        | Except.error e => Except.error e
        | Except.ok rest =>
          Except.ok
            ⟨(if is_match then
                [(candidate_hash, candidateAt cs len (chunk_start + index))]
              else []) ++ rest.results,
             (if is_match then [(worker_id, 1, total_combinations)] else []) ++
               (if index % progress_report_interval == 0 then
                 [(worker_id, progress_report_interval, total_combinations)]
               else []) ++ rest.progress,
             rest.processed + 1⟩

/-- The `worker` function.  The initial skip loop (`for _ in
range(chunk_start): next(candidate_space)`) raises `StopIteration` when
`chunk_start` exceeds the keyspace size; `islice(candidate_space,
chunk_end - chunk_start)` then yields at most the items left in the
iterator, hence the `min`. -/
def worker (H : HashLib) (worker_id : Nat) (cs : List Char)
    (len chunk_start chunk_end : Nat) (target_hashes : List String)
    (hash_algorithm : String) (progress_report_interval : Nat)
    (stop_event : Nat → Bool) : Except String WorkerOut :=
  let total_combinations := chunk_end - chunk_start
  if chunk_start > cs.length ^ len then
    Except.error "StopIteration"
  else
    workerLoop H worker_id cs len chunk_start target_hashes hash_algorithm
      progress_report_interval stop_event total_combinations
      (min (chunk_end - chunk_start) (cs.length ^ len - chunk_start)) 0

/-! ## Coordinator: `main_process` (lines 58-137) and `main` (172-199) -/

/-- Chunk list computed by `main_process` (line 73).  Python
`range(num_workers)` is empty for a non-positive worker count. -/
def main_process_chunks (num_workers chunk_size total_combinations : Int) :
    List (Int × Int) :=
  (List.range num_workers.toNat).map
    (fun (i : Nat) => ((i : Int) * chunk_size,
      min (((i : Int) + 1) * chunk_size) total_combinations))

/-- `chunk_size = total_combinations // num_workers` computed in `main`
(line 190).  Python raises `ZeroDivisionError` for a zero worker count
and floors toward minus infinity otherwise (`Int.fdiv`). -/
def main_chunk_size (total_combinations num_workers : Int) :
    Except String Int :=
  if num_workers = 0 then
    Except.error "ZeroDivisionError: integer division or modulo by zero"
  else
    Except.ok (Int.fdiv total_combinations num_workers)

/-- Aggregation state of `main_process`'s event loop (lines 95-113),
polymorphic in the match-event payload. -/
structure AggState (ε : Type) where
  results : List ε
  found_pre_images : Nat
  stop_set : Bool
  deriving Repr, DecidableEq

def initAggState (ε : Type) : AggState ε := ⟨[], 0, false⟩

/-- One drained match event (lines 105-113): unconditionally append to
`results` and increment `found_pre_images`; once the count reaches
`len(target_hashes)`, `stop_event.set()` is called. -/
def processResult {ε : Type} (target_count : Nat) (st : AggState ε)
    (ev : ε) : AggState ε :=
  ⟨st.results ++ [ev], st.found_pre_images + 1,
   st.stop_set || decide (target_count ≤ st.found_pre_images + 1)⟩

/-- Draining a sequence of match events from the result queue. -/
def drainResults {ε : Type} (target_count : Nat) (st : AggState ε)
    (evs : List ε) : AggState ε :=
  evs.foldl (processResult target_count) st

/-- End-to-end model of `main_process` for the event schedule in which
no worker ever observes the stop flag (maximal work) and match events
are drained in worker order; it returns the chunk list and the final
aggregation state.  Used for claims about degenerate chunk lists, where
the schedule is irrelevant. -/
def main_process_model (H : HashLib) (num_workers chunk_size : Int)
    (cs : List Char) (len : Nat) (target_hashes : List String)
    (hash_algorithm : String) (progress_report_interval : Nat) :
    Except String (List (Int × Int) × AggState (String × String)) := do
  let total : Int := ((cs.length ^ len : Nat) : Int)
  let chunks := main_process_chunks num_workers chunk_size total
  let outs ← chunks.enum.mapM (fun p =>
    worker H p.1 cs len p.2.1.toNat p.2.2.toNat target_hashes
      hash_algorithm progress_report_interval (fun _ => false))
  Except.ok (chunks,
    drainResults target_hashes.length (initAggState _)
      (outs.flatMap (fun o => o.results)))

/-! ## Configuration loading: `load_target_hashes_and_config`
(lines 139-160) and `charset_option` (lines 162-170)

The file's content is modelled as its list of lines (without trailing
newlines; every Python access strips them anyway). -/

structure Config where
  charset : Int
  algorithm : String
  length : Int
  deriving Repr, DecidableEq

/-- Python `str.startswith`.  (Lean's own `String` primitives are not
kernel-reducible, so the Python string operations the loader uses are
modelled directly on the character lists.) -/
def pyStartsWith (line pre : String) : Bool :=
  line.data.take pre.data.length == pre.data

def pySplitAux (sep : Char) : List Char → List Char → List (List Char)
  | [], acc => [acc.reverse]
  | x :: xs, acc =>
    if x == sep then acc.reverse :: pySplitAux sep xs []
    else pySplitAux sep xs (x :: acc)

/-- Python `str.split(sep)` for a one-character separator (the source
only splits on ":"). -/
def pySplit (s : String) (sep : Char) : List String :=
  (pySplitAux sep s.data []).map String.mk

/-- Whitespace as recognised by Python `str.strip()` (restricted to the
ASCII whitespace that can occur in the repository's input lines). -/
def pySpace (c : Char) : Bool :=
  c == ' ' || c == '\t' || c == '\n' || c == '\r'

/-- Python `str.strip()`. -/
def pyStrip (s : String) : String :=
  String.mk (((s.data.dropWhile pySpace).reverse.dropWhile pySpace).reverse)

/-- Python `str.lower()` on ASCII input (hex digest strings). -/
def pyLowerChar (c : Char) : Char :=
  if 'A' ≤ c ∧ c ≤ 'Z' then Char.ofNat (c.toNat + 32) else c

def pyLower (s : String) : String :=
  String.mk (s.data.map pyLowerChar)

def pyDigitsAux : List Char → Nat → Option Nat
  | [], acc => some acc
  | c :: cs, acc =>
    if '0' ≤ c ∧ c ≤ '9' then
      pyDigitsAux cs (acc * 10 + (c.toNat - '0'.toNat))
    else none

/-- Python `int(...)`: strips whitespace, accepts an optional sign
followed by decimal digits, raises `ValueError` otherwise. -/
def parseIntPy (s : String) : Except String Int :=
  match (pyStrip s).data with
  | '-' :: ds =>
    match pyDigitsAux ds 0 with
    | some n =>
      if ds.isEmpty then
        Except.error ("ValueError: invalid literal for int(): " ++ s)
      else Except.ok (-(n : Int))
    | none => Except.error ("ValueError: invalid literal for int(): " ++ s)
  | '+' :: ds =>
    match pyDigitsAux ds 0 with
    | some n =>
      if ds.isEmpty then
        Except.error ("ValueError: invalid literal for int(): " ++ s)
      else Except.ok (n : Int)
    | none => Except.error ("ValueError: invalid literal for int(): " ++ s)
  | ds =>
    match pyDigitsAux ds 0 with
    | some n =>
      if ds.isEmpty then
        Except.error ("ValueError: invalid literal for int(): " ++ s)
      else Except.ok (n : Int)
    | none => Except.error ("ValueError: invalid literal for int(): " ++ s)

def loadStep (acc : List String × Config) (line : String) :
    Except String (List String × Config) :=
  if pyStartsWith line "#charset:" then do
    let n ← parseIntPy ((pySplit line ':').getD 1 "")
    Except.ok (acc.1, ⟨n, acc.2.algorithm, acc.2.length⟩)
  else if pyStartsWith line "#algorithm:" then
    Except.ok (acc.1, ⟨acc.2.charset, pyStrip ((pySplit line ':').getD 1 ""),
      acc.2.length⟩)
  else if pyStartsWith line "#length:" then do
    let n ← parseIntPy ((pySplit line ':').getD 1 "")
    Except.ok (acc.1, ⟨acc.2.charset, acc.2.algorithm, n⟩)
  else if pyStartsWith line "#" then
    Except.ok acc
  else
    let hash_val := pyLower (pyStrip line)
    if hash_val = "" then Except.ok acc
    else if acc.1.contains hash_val then Except.ok acc
    else Except.ok (acc.1 ++ [hash_val], acc.2)

/-- `load_target_hashes_and_config`: defaults `{charset: 1, algorithm:
"MD5", length: 4}`; `#`-prefixed config lines override fields, other
nonempty lines are lower-cased target digests (Python's set modelled as
a first-occurrence list). -/
def load_target_hashes_and_config (lines : List String) :
    Except String (List String × Config) :=
  lines.foldlM loadStep ([], ⟨1, "MD5", 4⟩)

/-- `charset_option`: the dictionary lookup with digits-only default. -/
def charset_option (charset_id : Int) : String :=
  if charset_id = 1 then "0123456789"
  else if charset_id = 2 then "0123456789ABCDEFGHIJKLMNOPQRSTUVWXYZ"
  else if charset_id = 3 then
    "0123456789abcdefghijklmnopqrstuvwxyzABCDEFGHIJKLMNOPQRSTUVWXYZ"
  else if charset_id = 4 then
    "0123456789abcdefghijklmnopqrstuvwxyzABCDEFGHIJKLMNOPQRSTUVWXYZ!@#$%^&*()-_=+[]\x7b\x7d|;:\",.<>?/~`"
  else "0123456789"

/-- Identity digest functions: a convenient concrete `HashLib`
instantiation for closed evaluations (no claim depends on digest
values). -/
def hashLibId : HashLib := ⟨fun s => s, fun s => s, fun s => s⟩

/-!  ## Aggregation-loop lemmas -/

theorem drainResults_append {ε : Type} (tc : Nat) (st : AggState ε)
    (p q : List ε) :
    drainResults tc st (p ++ q) = drainResults tc (drainResults tc st p) q :=
  List.foldl_append _ _ _ _

theorem drainResults_spec {ε : Type} (tc : Nat) :
    ∀ (evs : List ε) (st : AggState ε),
      (drainResults tc st evs).found_pre_images =
        st.found_pre_images + evs.length ∧
      (drainResults tc st evs).results = st.results ++ evs := by
  intro evs
  induction evs with
  | nil => intro st; simp [drainResults]
  | cons e evs ih =>
    intro st
    have hstep : drainResults tc st (e :: evs) =
        drainResults tc (processResult tc st e) evs := rfl
    rcases ih (processResult tc st e) with ⟨h1, h2⟩
    constructor
    · rw [hstep, h1]
      simp [processResult]
      omega
    · rw [hstep, h2]
      simp [processResult]

theorem drainResults_stop_iff {ε : Type} (tc : Nat) :
    ∀ (evs : List ε) (st : AggState ε),
      ((drainResults tc st evs).stop_set = true ↔
        st.stop_set = true ∨
          (1 ≤ evs.length ∧ tc ≤ st.found_pre_images + evs.length)) := by
  intro evs
  induction evs with
  | nil => intro st; simp [drainResults]
  | cons e evs ih =>
    intro st
    have hstep : drainResults tc st (e :: evs) =
        drainResults tc (processResult tc st e) evs := rfl
    rw [hstep, ih (processResult tc st e)]
    simp only [processResult, Bool.or_eq_true, decide_eq_true_eq,
      List.length_cons]
    constructor
    · rintro ((h | h) | ⟨h1, h2⟩)
      · exact Or.inl h
      · exact Or.inr ⟨by omega, by omega⟩
      · exact Or.inr ⟨by omega, by omega⟩
    · rintro (h | ⟨h1, h2⟩)
      · exact Or.inl (Or.inl h)
      · by_cases hc : tc ≤ st.found_pre_images + 1
        · exact Or.inl (Or.inr hc)
        · exact Or.inr ⟨by omega, by omega⟩

/-! ## Claim C1 -/

/-- C1 (refuted; code bug): with charset "0123456789" and length 1,
`total = 10`, and with 3 workers `main` computes `chunk_size = 10 // 3 =
3`; the chunks built by `main_process` are `[0,3), [3,6), [6,9)`, and
index 9 — a valid index of `[0, total)` — lies in none of them.  The
chunks are not a partition of `[0, total)`: the last chunk does not
absorb the remainder of the integer division, so the final
`total mod num_workers` candidates are never searched. -/
theorem chunks_drop_remainder :
    main_chunk_size 10 3 = Except.ok 3 ∧
    main_process_chunks 3 3 10 = [(0, 3), (3, 6), (6, 9)] ∧
    (0 : Int) ≤ 9 ∧ (9 : Int) < 10 ∧
    ∀ c ∈ main_process_chunks 3 3 10, ¬(c.1 ≤ 9 ∧ (9 : Int) < c.2) := by
  refine ⟨rfl, by decide, by decide, by decide, by decide⟩

/-! ## Claim C3 -/

/-- C3 counterexample: two match events carrying the same digest "aa"
both increment `found_pre_images` — the drain loop performs no
deduplication — so the count reaches 2 = `len(target_hashes)` and the
stop flag fires although only one distinct digest was matched. -/
theorem found_count_counts_duplicate_digest :
    (drainResults 2 (initAggState (String × String × Nat))
        [("aa", "x", 0), ("aa", "y", 1)]).found_pre_images = 2 ∧
    (drainResults 2 (initAggState (String × String × Nat))
        [("aa", "x", 0), ("aa", "y", 1)]).stop_set = true := by
  exact ⟨rfl, rfl⟩

/-- C3 amended: the coordinator performs no deduplication by digest:
every drained MatchEvent is appended to the results and increments
`found_pre_images` by exactly one, so after draining any sequence of
events the found count equals the number of events — duplicated digests
included — and reaches `len(target_hashes)` as soon as that many events
(not distinct digests) have been drained. -/
theorem found_count_increment_per_event {ε : Type} (target_count : Nat)
    (evs : List ε) :
    (drainResults target_count (initAggState ε) evs).found_pre_images =
      evs.length ∧
    (drainResults target_count (initAggState ε) evs).results = evs := by
  rcases drainResults_spec target_count evs (initAggState ε) with ⟨h1, h2⟩
  rw [h1, h2]
  exact ⟨Nat.zero_add _, List.nil_append _⟩

/-! ## Claim C4 -/

/-- C4: with a nonempty target set, the aggregation loop raises the stop
event exactly when the found count has reached the target count: the
final stop flag is set iff `found_pre_images ≥ len(target_hashes)`; the
flag is already set after draining the prefix of events that first
reaches the count (early exit: it does not wait for the remaining
events); and once set after a prefix it remains set under any further
events (the repeated `stop_event.set()` calls are idempotent). -/
theorem stop_event_exactly_on_threshold {ε : Type} (tc : Nat)
    (htc : 1 ≤ tc) (evs p q : List ε) (hsplit : evs = p ++ q) :
    ((drainResults tc (initAggState ε) evs).stop_set = true ↔
      tc ≤ (drainResults tc (initAggState ε) evs).found_pre_images) ∧
    (tc ≤ (drainResults tc (initAggState ε) p).found_pre_images →
      (drainResults tc (initAggState ε) p).stop_set = true) ∧
    ((drainResults tc (initAggState ε) p).stop_set = true →
      (drainResults tc (initAggState ε) evs).stop_set = true) := by
  have hfound : ∀ l : List ε,
      (drainResults tc (initAggState ε) l).found_pre_images = l.length := by
    intro l
    rcases drainResults_spec tc l (initAggState ε) with ⟨h1, _⟩
    rw [h1]
    exact Nat.zero_add _
  refine ⟨?_, ?_, ?_⟩
  · rw [drainResults_stop_iff, hfound]
    show (initAggState ε).stop_set = true ∨ _ ↔ _
    simp only [initAggState]
    constructor
    · intro h; rcases h with h | h
      · exact absurd h (by simp)
      · omega
    · intro h; right; omega
  · intro hp
    rw [drainResults_stop_iff]
    right
    rw [hfound] at hp
    exact ⟨by omega, by rw [initAggState]; omega⟩
  · intro hp
    rw [hsplit, drainResults_append, drainResults_stop_iff]
    left
    exact hp

/-- Witness for C4: a single match event against a single-digest target
set sets the stop flag. -/
theorem stop_event_exactly_on_threshold_witness :
    (drainResults 1 (initAggState (String × String × Nat))
      [("aa", "x", 0)]).stop_set = true :=
  (stop_event_exactly_on_threshold 1 (by decide) [("aa", "x", 0)]
      [("aa", "x", 0)] [] rfl).1.mpr (by decide)

/-! ## Claim C5 -/

/-- C5 counterexample: the configuration loader accepts the unsupported
algorithm "SHA-512" without any error — no validation happens at
configuration-load time — while a worker running with that algorithm
fails with the `ValueError` from `hash_match` at its very first
candidate, i.e. during the search. -/
theorem unsupported_algorithm_raised_per_candidate :
    load_target_hashes_and_config ["#algorithm:SHA-512", "aabb"] =
      Except.ok (["aabb"], ⟨1, "SHA-512", 4⟩) ∧
    worker hashLibId 0 ['0', '1'] 2 0 4 ["aabb"] "SHA-512" 10000
        (fun _ => false) =
      Except.error "Unsupported hash algorithm: SHA-512" := by
  exact ⟨rfl, rfl⟩

/-- C5 amended: `hash_match` returns the digest of the candidate under
the selected algorithm together with its target-set membership for
"MD5", "SHA-1" and "SHA-256", and fails with `ValueError: Unsupported
hash algorithm` for every other algorithm value; but this failure is not
surfaced at configuration-load time — the loader stores any algorithm
string verbatim — and is instead raised per-candidate during the search,
at the first candidate a worker hashes. -/
theorem hash_match_dispatch (H : HashLib) (cand : String)
    (targets : List String) :
    (hash_match H cand targets "MD5" =
      Except.ok (H.md5 cand, targets.contains (H.md5 cand))) ∧
    (hash_match H cand targets "SHA-1" =
      Except.ok (H.sha1 cand, targets.contains (H.sha1 cand))) ∧
    (hash_match H cand targets "SHA-256" =
      Except.ok (H.sha256 cand, targets.contains (H.sha256 cand))) ∧
    (∀ alg, alg ≠ "MD5" → alg ≠ "SHA-1" → alg ≠ "SHA-256" →
      hash_match H cand targets alg =
        Except.error ("Unsupported hash algorithm: " ++ alg)) ∧
    load_target_hashes_and_config ["#algorithm:SHA-512"] =
      Except.ok ([], ⟨1, "SHA-512", 4⟩) ∧
    (∀ alg (cs : List Char) (len s e interval : Nat)
        (stop_ev : Nat → Bool) (wid : Nat),
      alg ≠ "MD5" → alg ≠ "SHA-1" → alg ≠ "SHA-256" →
      s < e → s < cs.length ^ len → stop_ev 0 = false →
      worker H wid cs len s e targets alg interval stop_ev =
        Except.error ("Unsupported hash algorithm: " ++ alg)) := by
  have hdisp : ∀ (c : String) alg, alg ≠ "MD5" → alg ≠ "SHA-1" →
      alg ≠ "SHA-256" →
      hash_match H c targets alg =
        Except.error ("Unsupported hash algorithm: " ++ alg) := by
    intro c alg h1 h2 h3
    simp [hash_match, h1, h2, h3]
  refine ⟨by simp [hash_match], by simp [hash_match], by simp [hash_match],
    hdisp cand, rfl, ?_⟩
  intro alg cs len s e interval stop_ev wid h1 h2 h3 hse hs hstop
  unfold worker
  rw [if_neg (by omega)]
  have hrem : min (e - s) (cs.length ^ len - s) =
      (min (e - s) (cs.length ^ len - s) - 1) + 1 := by omega
  rw [hrem]
  conv_lhs => rw [workerLoop]
  rw [hstop]
  rw [if_neg (by simp)]
  rw [hdisp (candidateAt cs len (s + 0)) alg h1 h2 h3]

/-- Witness for C5: a worker on a nonempty chunk with algorithm
"SHA-384" fails with the per-candidate ValueError. -/
theorem hash_match_dispatch_witness :
    worker hashLibId 0 ['0', '1'] 1 0 2 ["ab"] "SHA-384" 10000
        (fun _ => false) =
      Except.error "Unsupported hash algorithm: SHA-384" :=
  (hash_match_dispatch hashLibId "" ["ab"]).2.2.2.2.2 "SHA-384" ['0', '1'] 1
    0 2 10000 (fun _ => false) 0 (by decide) (by decide) (by decide)
    (by decide) (by decide) rfl

/-! ## Claim C9 -/

/-- C9: a worker whose chunk is empty (`chunk_start == chunk_end`)
terminates immediately as a no-op: no exception, no match events, no
progress events, zero candidates processed.  Moreover whenever
`num_workers > total` the chunk_size computed by `main` is 0 and every
chunk `main_process` produces is the empty chunk `(0, 0)`. -/
theorem empty_chunk_noop (H : HashLib) (wid : Nat) (cs : List Char)
    (len s : Nat) (targets : List String) (alg : String) (interval : Nat)
    (stop_ev : Nat → Bool) (hs : s ≤ cs.length ^ len)
    (num_workers total : Int) (h0 : 0 ≤ total) (hlt : total < num_workers) :
    worker H wid cs len s s targets alg interval stop_ev =
      Except.ok ⟨[], [], 0⟩ ∧
    main_chunk_size total num_workers = Except.ok 0 ∧
    ∀ c ∈ main_process_chunks num_workers 0 total, c = (0, 0) := by
  refine ⟨?_, ?_, ?_⟩
  · unfold worker
    rw [if_neg (Nat.not_lt.mpr hs), Nat.sub_self, Nat.zero_min]
    rfl
  · rcases Int.eq_ofNat_of_zero_le h0 with ⟨t, rfl⟩
    rcases Int.eq_ofNat_of_zero_le
      (le_of_lt (lt_of_le_of_lt h0 hlt)) with ⟨w, rfl⟩
    unfold main_chunk_size
    rw [if_neg (by omega)]
    have htw : t < w := by exact_mod_cast hlt
    have hfd : Int.fdiv (Int.ofNat t) (Int.ofNat w) = Int.ofNat (t / w) := by
      cases t with
      | zero => simp [Int.fdiv]
      | succ m => rfl
    show Except.ok (Int.fdiv (Int.ofNat t) (Int.ofNat w)) = _
    rw [hfd, Nat.div_eq_of_lt htw]
    rfl
  · intro c hc
    simp only [main_process_chunks, List.mem_map, List.mem_range] at hc
    rcases hc with ⟨i, _, rfl⟩
    rw [Int.mul_zero, Int.mul_zero, min_eq_left h0]

/-- Witness for C9: the empty chunk (0, 0), as produced for 5 workers on
a 4-element keyspace, is a no-op. -/
theorem empty_chunk_noop_witness :
    worker hashLibId 3 ['0', '1'] 2 0 0 ["aa"] "MD5" 10000
        (fun _ => false) = Except.ok ⟨[], [], 0⟩ ∧
    main_chunk_size 4 5 = Except.ok 0 ∧
    ∀ c ∈ main_process_chunks 5 0 4, c = (0, 0) :=
  empty_chunk_noop hashLibId 3 ['0', '1'] 2 0 ["aa"] "MD5" 10000
    (fun _ => false) (by decide) 5 4 (by decide) (by decide)

/-! ## Worker-loop inversion -/

/-- Inversion of one `workerLoop` iteration: either the stop check broke
the loop, or the candidate was hashed and the loop recursed. -/
theorem workerLoop_succ_inv (H : HashLib) (wid : Nat) (cs : List Char)
    (len cst : Nat) (targets : List String) (alg : String) (interval : Nat)
    (stop_ev : Nat → Bool) (tcomb r index : Nat) (out : WorkerOut)
    (hok : workerLoop H wid cs len cst targets alg interval stop_ev tcomb
      (r + 1) index = Except.ok out) :
    ((index % stop_check_interval == 0 && stop_ev index) = true ∧
      out = ⟨[], [], 0⟩) ∨
    ((index % stop_check_interval == 0 && stop_ev index) = false ∧
      ∃ ch im rest,
        hash_match H (candidateAt cs len (cst + index)) targets alg =
          Except.ok (ch, im) ∧
        workerLoop H wid cs len cst targets alg interval stop_ev tcomb
          r (index + 1) = Except.ok rest ∧
        out = ⟨(if im then [(ch, candidateAt cs len (cst + index))]
            else []) ++ rest.results,
          (if im then [(wid, 1, tcomb)] else []) ++
            (if index % interval == 0 then [(wid, interval, tcomb)]
            else []) ++ rest.progress,
          rest.processed + 1⟩) := by
  rw [workerLoop] at hok
  by_cases hcond : (index % stop_check_interval == 0 && stop_ev index) = true
  · rw [if_pos hcond] at hok
    left
    refine ⟨hcond, ?_⟩
    injection hok with h
    exact h.symm
  · rw [if_neg hcond] at hok
    right
    refine ⟨by simpa using hcond, ?_⟩
    cases hhm : hash_match H (candidateAt cs len (cst + index)) targets alg with
    | error e =>
      rw [hhm] at hok
      dsimp only at hok
      exact Except.noConfusion hok
    | ok pr =>
      obtain ⟨ch, im⟩ := pr
      rw [hhm] at hok
      dsimp only at hok
      cases hrec : workerLoop H wid cs len cst targets alg interval stop_ev
          tcomb r (index + 1) with
      | error e =>
        rw [hrec] at hok
        dsimp only at hok
        exact Except.noConfusion hok
      | ok rest =>
        rw [hrec] at hok
        dsimp only at hok
        injection hok with h
        exact ⟨ch, im, rest, rfl, rfl, h.symm⟩

/-! ## Claim C6 -/

/-- Every candidate index a worker actually processes failed the stop
check: the loop checks `index % stop_check_interval == 0 and
stop_event.is_set()` at the top of every iteration. -/
theorem workerLoop_no_break_hit (H : HashLib) (wid : Nat) (cs : List Char)
    (len cst : Nat) (targets : List String) (alg : String) (interval : Nat)
    (stop_ev : Nat → Bool) (tcomb : Nat) :
    ∀ (remaining index : Nat) (out : WorkerOut),
      workerLoop H wid cs len cst targets alg interval stop_ev tcomb
          remaining index = Except.ok out →
      ∀ j, index ≤ j → j < index + out.processed →
        (j % stop_check_interval == 0 && stop_ev j) = false := by
  intro remaining
  induction remaining with
  | zero =>
    intro index out hok j h1 h2
    simp only [workerLoop, Except.ok.injEq] at hok
    rw [← hok] at h2
    have h2' : j < index + 0 := h2
    exact absurd h2' (by omega)
  | succ r ih =>
    intro index out hok j h1 h2
    rcases workerLoop_succ_inv H wid cs len cst targets alg interval stop_ev
        tcomb r index out hok with
      ⟨hcond, rfl⟩ | ⟨hcond, ch, im, rest, hhm, hrec, rfl⟩
    · have h2' : j < index + 0 := h2
      exact absurd h2' (by omega)
    · have h2' : j < index + (rest.processed + 1) := h2
      by_cases hj : j = index
      · subst hj
        exact hcond
      · exact ih (index + 1) rest hrec j (by omega) (by omega)

/-- C6: whenever the stop event is set from some relative index `s` of a
worker's iteration onward, the worker processes at most
`stop_check_interval = 10000` candidates past `s`: its total processed
count is bounded by `s + 10000`, so the overshoot past cancellation is
bounded by the polling interval. -/
theorem worker_overshoot_bounded (H : HashLib) (wid : Nat) (cs : List Char)
    (len cst cend : Nat) (targets : List String) (alg : String)
    (interval : Nat) (stop_ev : Nat → Bool) (s : Nat)
    (hset : ∀ i, s ≤ i → stop_ev i = true) (out : WorkerOut)
    (hok : worker H wid cs len cst cend targets alg interval stop_ev =
      Except.ok out) :
    out.processed ≤ s + stop_check_interval := by
  unfold worker at hok
  by_cases hskip : cst > cs.length ^ len
  · rw [if_pos hskip] at hok
    exact Except.noConfusion hok
  · rw [if_neg hskip] at hok
    by_contra hcon
    push_neg at hcon
    have hI : stop_check_interval = 10000 := rfl
    rw [hI] at hcon
    set m := s + (10000 - s % 10000) % 10000 with hm
    have hm0 : m % 10000 = 0 := by omega
    have hms : s ≤ m := by omega
    have hmlt : m < 0 + out.processed := by omega
    have hhit := workerLoop_no_break_hit H wid cs len cst targets alg
      interval stop_ev (cend - cst) _ 0 out hok m (Nat.zero_le m) hmlt
    rw [hset m hms, hI] at hhit
    simp [hm0] at hhit

/-- Witness for C6: with the stop event set from the start, a worker
breaks immediately, processing 0 ≤ 0 + 10000 candidates. -/
theorem worker_overshoot_bounded_witness :
    (⟨[], [], 0⟩ : WorkerOut).processed ≤ 0 + stop_check_interval :=
  worker_overshoot_bounded hashLibId 0 ['0', '1'] 2 0 4 [] "MD5" 10000
    (fun _ => true) 0 (fun _ _ => rfl) ⟨[], [], 0⟩ rfl

/-! ## Claim C7 -/

/-- Sum of the `delta` components of the progress events a worker put on
the progress queue. -/
def progressDeltaSum (evs : List (Nat × Nat × Nat)) : Nat :=
  (evs.map (fun e => e.2.1)).sum

theorem countP_multiples (I : Nat) (hI : 0 < I) :
    ∀ L : Nat,
      (List.range L).countP (fun k => k % I == 0) = (L + I - 1) / I := by
  intro L
  induction L with
  | zero =>
    simp only [List.range_zero, List.countP_nil, Nat.zero_add]
    symm
    apply Nat.div_eq_of_lt
    omega
  | succ L ih =>
    rw [List.range_succ, List.countP_append, ih]
    have hone : [L].countP (fun k => k % I == 0) =
        if L % I = 0 then 1 else 0 := by
      simp [List.countP_cons, List.countP_nil]
    rw [hone]
    have hqr := Nat.div_add_mod L I
    have hmul : I * (L / I + 1) = I * (L / I) + I := by ring
    by_cases hr : L % I = 0
    · rw [if_pos hr]
      have e1 : L + I - 1 = I * (L / I) + (I - 1) := by omega
      have e2 : L + 1 + I - 1 = I * (L / I + 1) + 0 := by omega
      rw [e1, e2, Nat.mul_add_div hI, Nat.mul_add_div hI,
        Nat.div_eq_of_lt (by omega : I - 1 < I), Nat.zero_div]
    · rw [if_neg hr]
      have hrlt : L % I < I := Nat.mod_lt _ hI
      have e1 : L + I - 1 = I * (L / I + 1) + (L % I - 1) := by omega
      have e2 : L + 1 + I - 1 = I * (L / I + 1) + L % I := by omega
      rw [e1, e2, Nat.mul_add_div hI, Nat.mul_add_div hI,
        Nat.div_eq_of_lt (by omega : L % I - 1 < I),
        Nat.div_eq_of_lt hrlt]

/-- In an uncancelled run, each loop pass processes one candidate and
emits the constant-delta interval event exactly at indices divisible by
the report interval, plus a unit event per match. -/
theorem workerLoop_progress_spec (H : HashLib) (wid : Nat) (cs : List Char)
    (len cst : Nat) (targets : List String) (alg : String)
    (interval tcomb : Nat) :
    ∀ (remaining index : Nat) (out : WorkerOut),
      workerLoop H wid cs len cst targets alg interval (fun _ => false)
          tcomb remaining index = Except.ok out →
      out.processed = remaining ∧
      progressDeltaSum out.progress = out.results.length +
        interval * ((List.range remaining).countP
          (fun k => (index + k) % interval == 0)) := by
  intro remaining
  induction remaining with
  | zero =>
    intro index out hok
    simp only [workerLoop, Except.ok.injEq] at hok
    rw [← hok]
    simp [progressDeltaSum]
  | succ r ih =>
    intro index out hok
    rcases workerLoop_succ_inv H wid cs len cst targets alg interval
        (fun _ => false) tcomb r index out hok with
      ⟨hcond, rfl⟩ | ⟨hcond, ch, im, rest, hhm, hrec, rfl⟩
    · simp at hcond
    · rcases ih (index + 1) rest hrec with ⟨hp, hs⟩
      have hcount : (List.range (r + 1)).countP
          (fun k => (index + k) % interval == 0) =
          (if (index % interval == 0) = true then 1 else 0) +
            (List.range r).countP
              (fun k => (index + 1 + k) % interval == 0) := by
        rw [List.range_succ_eq_map, List.countP_cons, List.countP_map]
        have hfun : ((fun k => (index + k) % interval == 0) ∘ Nat.succ) =
            (fun k => (index + 1 + k) % interval == 0) := by
          funext k
          show ((index + (k + 1)) % interval == 0) = _
          have : index + (k + 1) = index + 1 + k := by omega
          rw [this]
        rw [hfun]
        simp [Nat.add_comm]
      constructor
      · show rest.processed + 1 = r + 1
        omega
      · have hsum : progressDeltaSum
            ((if im then [(wid, 1, tcomb)] else []) ++
              (if index % interval == 0 then [(wid, interval, tcomb)]
              else []) ++ rest.progress) =
            (if im then 1 else 0) +
              ((if (index % interval == 0) = true then interval else 0) +
                progressDeltaSum rest.progress) := by
          by_cases him : im <;>
            by_cases hidx : (index % interval == 0) = true <;>
            simp [progressDeltaSum, him, hidx]
        have hlen : ((if im then [(ch, candidateAt cs len (cst + index))]
            else []) ++ rest.results).length =
            (if im then 1 else 0) + rest.results.length := by
          by_cases him : im <;> simp [him] <;> omega
        show progressDeltaSum _ = List.length _ + _
        rw [hsum, hlen, hs, hcount, Nat.mul_add]
        by_cases hidx : (index % interval == 0) = true <;>
          simp [hidx] <;> omega

/-- C7 (amended): for a worker run that completes its chunk without
cancellation, each interval ProgressEvent carries the constant delta
`progress_report_interval`, emitted at every index divisible by the
interval, plus one extra unit event per match; the sum of the deltas is
`results + interval * ceil(processed / interval)`, which is always at
least — and in general strictly more than — the number of candidates
actually processed. -/
theorem progress_deltas_overcount (H : HashLib) (wid : Nat)
    (cs : List Char) (len cst cend : Nat) (targets : List String)
    (alg : String) (interval : Nat) (hI : 0 < interval) (out : WorkerOut)
    (hok : worker H wid cs len cst cend targets alg interval
      (fun _ => false) = Except.ok out) :
    progressDeltaSum out.progress = out.results.length +
      interval * ((out.processed + interval - 1) / interval) ∧
    out.processed ≤ progressDeltaSum out.progress := by
  unfold worker at hok
  by_cases hskip : cst > cs.length ^ len
  · rw [if_pos hskip] at hok
    exact Except.noConfusion hok
  · rw [if_neg hskip] at hok
    rcases workerLoop_progress_spec H wid cs len cst targets alg interval
        (cend - cst) _ 0 out hok with ⟨hp, hs⟩
    have hzero : (fun k => (0 + k) % interval == 0) =
        (fun k => k % interval == 0) := by
      funext k
      rw [Nat.zero_add]
    rw [hzero, countP_multiples interval hI, ← hp] at hs
    refine ⟨hs, ?_⟩
    have h1 := Nat.div_add_mod (out.processed + interval - 1) interval
    have h2 : (out.processed + interval - 1) % interval < interval :=
      Nat.mod_lt _ hI
    omega

/-- C7 counterexample: a worker completing a 3-candidate chunk without
cancellation and without matches emits a single progress event whose
delta is 10000 (the report interval), not the number of candidates
processed since the previous report; the sum of its deltas is 10000,
not the 3 candidates processed. -/
theorem progress_delta_not_processed_count :
    worker hashLibId 0 ['0', '1'] 2 0 3 [] "MD5" 10000 (fun _ => false) =
      Except.ok ⟨[], [(0, 10000, 3)], 3⟩ ∧
    progressDeltaSum [(0, 10000, 3)] = 10000 ∧ (10000 : Nat) ≠ 3 := by
  exact ⟨rfl, rfl, by decide⟩

/-- Witness for C7 on the same 3-candidate run: delta sum
10000 = 0 + 10000 * 1 and 3 ≤ 10000. -/
theorem progress_deltas_overcount_witness :
    progressDeltaSum (⟨[], [(0, 10000, 3)], 3⟩ : WorkerOut).progress =
      (⟨[], [(0, 10000, 3)], 3⟩ : WorkerOut).results.length +
        10000 * (((⟨[], [(0, 10000, 3)], 3⟩ : WorkerOut).processed +
          10000 - 1) / 10000) ∧
    (⟨[], [(0, 10000, 3)], 3⟩ : WorkerOut).processed ≤
      progressDeltaSum (⟨[], [(0, 10000, 3)], 3⟩ : WorkerOut).progress :=
  progress_deltas_overcount hashLibId 0 ['0', '1'] 2 0 3 [] "MD5" 10000
    (by decide) ⟨[], [(0, 10000, 3)], 3⟩ rfl

/-! ## Claim C8 -/

/-- C8 counterexample: with num_workers = -1 (which is < 1), `main`
computes chunk_size = 10000 // -1 = -10000 without any error, and
`main_process` builds an empty chunk list (Python `range(-1)` is empty),
launches no workers, and completes normally reporting zero results — it
proceeds instead of failing fast with a ConfigurationError. -/
theorem negative_worker_count_proceeds :
    main_chunk_size 10000 (-1) = Except.ok (-10000) ∧
    main_process_model hashLibId (-1) (-10000)
        ['0', '1', '2', '3', '4', '5', '6', '7', '8', '9'] 4 ["aabb"]
        "MD5" 10000 = Except.ok ([], ⟨[], 0, false⟩) := by
  exact ⟨rfl, rfl⟩

/-- C8 amended: the code performs no configuration validation and no
ConfigurationError exists.  A worker count of zero crashes `main` with
an uncaught ZeroDivisionError while computing chunk_size — before
`main_process` runs, so no workers launch — while any negative worker
count makes `main_process` proceed normally: its chunk list is empty, no
workers are launched, and the search returns zero results.  `total`
cannot overflow, Python integers being unbounded. -/
theorem no_configuration_validation (H : HashLib) (cs : List Char)
    (len : Nat) (targets : List String) (alg : String) (interval : Nat)
    (num_workers chunk_size total : Int) (hneg : num_workers < 0) :
    main_chunk_size total 0 =
      Except.error "ZeroDivisionError: integer division or modulo by zero" ∧
    main_process_chunks num_workers chunk_size total = [] ∧
    main_process_model H num_workers chunk_size cs len targets alg
      interval = Except.ok ([], initAggState (String × String)) := by
  have hchunks : ∀ t : Int,
      main_process_chunks num_workers chunk_size t = [] := by
    intro t
    unfold main_process_chunks
    rw [Int.toNat_of_nonpos (le_of_lt hneg), List.range_zero, List.map_nil]
  refine ⟨rfl, hchunks total, ?_⟩
  unfold main_process_model
  simp only [hchunks]
  rfl

/-- Witness for C8: zero workers crash, minus-two workers proceed with
no chunks. -/
theorem no_configuration_validation_witness :
    main_chunk_size 16 0 =
      Except.error "ZeroDivisionError: integer division or modulo by zero" ∧
    main_process_chunks (-2) 8 16 = [] ∧
    main_process_model hashLibId (-2) 8 ['0', '1'] 4 ["ff"] "SHA-1"
      10000 = Except.ok ([], initAggState (String × String)) :=
  no_configuration_validation hashLibId ['0', '1'] 4 ["ff"] "SHA-1" 10000
    (-2) 8 16 (by decide)

/-! ## Claim C10 -/

/-- C10: `charset_option` returns the table entry for charset ids 1-4
and silently falls back to the digits-only charset for every other id;
it never raises and never yields an empty charset. -/
theorem charset_option_spec (charset_id : Int) :
    charset_option 1 = "0123456789" ∧
    charset_option 2 = "0123456789ABCDEFGHIJKLMNOPQRSTUVWXYZ" ∧
    charset_option 3 =
      "0123456789abcdefghijklmnopqrstuvwxyzABCDEFGHIJKLMNOPQRSTUVWXYZ" ∧
    charset_option 4 =
      "0123456789abcdefghijklmnopqrstuvwxyzABCDEFGHIJKLMNOPQRSTUVWXYZ!@#$%^&*()-_=+[]\x7b\x7d|;:\",.<>?/~`" ∧
    (charset_id ≠ 1 → charset_id ≠ 2 → charset_id ≠ 3 → charset_id ≠ 4 →
      charset_option charset_id = "0123456789") ∧
    charset_option charset_id ≠ "" := by
  refine ⟨rfl, rfl, rfl, rfl, ?_, ?_⟩
  · intro h1 h2 h3 h4
    simp [charset_option, h1, h2, h3, h4]
  · unfold charset_option
    split_ifs <;> decide

/-- Witness for C10: an unrecognized id (-7) silently yields the
digits-only default. -/
theorem charset_option_spec_witness :
    charset_option (-7) = "0123456789" :=
  (charset_option_spec (-7)).2.2.2.2.1 (by decide) (by decide) (by decide)
    (by decide)

end BruteForce
